import Mathlib

/-!
Verification of `qstack/qnx/runtime/graph_vm.py`.

The module defines two classes:

* `OperatorGraph`: a DAG of operator names stored as two insertion-ordered
  Python dicts `_edges : Dict[str, List[str]]` and `_reverse`, with
  `add_edge(src, dst)` and `topological()` (Kahn's algorithm, seed queue
  sorted lexicographically, `ValueError` on a cycle).
* `GraphVM`: executes operators in topological order, recording one trace
  entry `{"tick": t, "op": name, "result": r}` per executed operator in a
  `TraceRecorder`, advancing a per-instance tick counter, and exposing
  `replay_buffer()` as the payload projection of the recorder snapshot.

Python dicts are modelled as insertion-ordered association lists; the
Python exceptions raised by the module (`ValueError`, `KeyError`) are
modelled as values carrying the exception class name and message, and an
operator's `execute` is modelled as a function into `Except`.
-/

set_option maxHeartbeats 1000000

deriving instance DecidableEq for Except

namespace GraphVMSpec

abbrev Name := String

/-- Python `dict` lookup on an insertion-ordered association list
(first matching key, as in a dict with unique keys). -/
def dget {α : Type} : List (Name × α) → Name → Option α
  | [], _ => none
  | (k', v) :: t, k => if k' = k then some v else dget t k

/-- Python `d.setdefault(k, []).append(v)`: append `v` to the list stored at
`k`, inserting the key at the end of the dict with `[v]` if it is absent. -/
def dsetApp : List (Name × List Name) → Name → Name → List (Name × List Name)
  | [], k, v => [(k, [v])]
  | (k', vs) :: t, k, v =>
      if k' = k then (k', vs ++ [v]) :: t else (k', vs) :: dsetApp t k v

/-- Python `d.setdefault(k, [])`: insert key `k` at the end with `[]` if absent. -/
def dsetNil : List (Name × List Name) → Name → List (Name × List Name)
  | [], k => [(k, [])]
  | (k', vs) :: t, k =>
      if k' = k then (k', vs) :: t else (k', vs) :: dsetNil t k

/-- Python `indegree[k] -= 1` on the first entry with key `k` (total function:
a missing key is a no-op here; in `topological` every decremented key is
present, since it is a dict key of `_reverse`). -/
def decKey : List (Name × Int) → Name → List (Name × Int)
  | [], _ => []
  | (k', c) :: t, k => if k' = k then (k', c - 1) :: t else (k', c) :: decKey t k

/-- `OperatorGraph`: the two dicts `_edges` and `_reverse`. -/
structure OperatorGraph where
  edges : List (Name × List Name)
  reverse : List (Name × List Name)
  deriving DecidableEq

/-- `OperatorGraph.__init__`: both dicts empty. -/
def OperatorGraph.empty : OperatorGraph := ⟨[], []⟩

/-- `OperatorGraph.add_edge(src, dst)`. -/
def addEdge (g : OperatorGraph) (src dst : Name) : OperatorGraph :=
  { edges := dsetNil (dsetApp g.edges src dst) dst
    reverse := dsetNil (dsetApp g.reverse dst src) src }

/-- An `OperatorGraph` built by a sequence of `add_edge` calls. -/
def buildGraph (l : List (Name × Name)) : OperatorGraph :=
  l.foldl (fun g e => addEdge g e.1 e.2) OperatorGraph.empty

/-- A raised Python exception: class name and message. -/
structure PyExc where
  cls : String
  msg : String
  deriving DecidableEq

/-- The exception raised by `topological` on a cycle:
`ValueError("cycle detected in operator graph")`. -/
def cycleExc : PyExc := ⟨"ValueError", "cycle detected in operator graph"⟩

/-- The body of `topological`'s `for neighbor in self._edges.get(node, [])`
loop: decrement each neighbor's indegree, appending the neighbor to the queue
when its indegree reaches exactly `0`. -/
def processNeighbors (indeg : List (Name × Int)) (queue : List Name) :
    List Name → List (Name × Int) × List Name
  | [] => (indeg, queue)
  | nb :: rest =>
      let indeg' := decKey indeg nb
      let queue' := if dget indeg' nb = some 0 then queue ++ [nb] else queue
      processNeighbors indeg' queue' rest

/-- The `while queue:` loop of `topological`: pop the front of the FIFO queue,
append it to the order, process its out-neighbors.  The Python loop has no
fuel; `fuel` makes the recursion structural, and `kahnLoop_measure` below
shows that the fuel supplied by `topological` always lets the loop run until
the queue is empty, as in Python. -/
def kahnLoop (g : OperatorGraph) :
    Nat → List (Name × Int) → List Name → List Name → List Name
  | 0, _, _, order => order
  | _ + 1, _, [], order => order
  | fuel + 1, indeg, node :: rest, order =>
      let s := processNeighbors indeg rest ((dget g.edges node).getD [])
      kahnLoop g fuel s.1 s.2 (order ++ [node])

/-- Sum of the positive indegree values; together with the queue length this
is a strictly decreasing measure of the loop, used to pick sufficient fuel. -/
def posSum (indeg : List (Name × Int)) : Nat := (indeg.map (fun p => p.2.toNat)).sum

/-- `indegree = {node: len(parents) for node, parents in self._reverse.items()}`. -/
def indeg0 (g : OperatorGraph) : List (Name × Int) :=
  g.reverse.map (fun p => (p.1, (p.2.length : Int)))

/-- `queue = deque(sorted([n for n, deg in indegree.items() if deg == 0]))`. -/
def seed (g : OperatorGraph) : List Name :=
  List.insertionSort (· ≤ ·) (((indeg0 g).filter (fun p => p.2 == 0)).map Prod.fst)

/-- `OperatorGraph.topological()`.  Computes indegrees from `_reverse`
(`indeg0`), seeds the queue with the lexicographically sorted zero-indegree
nodes (`seed`), runs Kahn's loop, and raises
`ValueError("cycle detected in operator graph")` when the resulting order
misses a node (the Python locals `indegree`/`order` are inlined). -/
def topological (g : OperatorGraph) : Except PyExc (List Name) :=
  if (kahnLoop g (posSum (indeg0 g) + (seed g).length) (indeg0 g)
        (seed g) []).length ≠ (indeg0 g).length
  then .error cycleExc
  else .ok (kahnLoop g (posSum (indeg0 g) + (seed g).length) (indeg0 g) (seed g) [])

/-- An edge occurrence `a → b` of the graph: `b` is among `_edges[a]`. -/
def edgeRel (g : OperatorGraph) (a b : Name) : Prop :=
  b ∈ (dget g.edges a).getD []

/-- The node set of the graph, as the key list of `_reverse` (for graphs built
by `add_edge`, the same set as the keys of `_edges`). -/
def nodes (g : OperatorGraph) : List Name := g.reverse.map Prod.fst

/-- The adjacency list `_edges.get(n, [])`. -/
def children (g : OperatorGraph) (n : Name) : List Name := (dget g.edges n).getD []

/-- The reverse adjacency list `_reverse.get(n, [])`. -/
def parents (g : OperatorGraph) (n : Name) : List Name := (dget g.reverse n).getD []

/-- The graph contains a (directed) cycle. -/
def Cyclic (g : OperatorGraph) : Prop := ∃ n, Relation.TransGen (edgeRel g) n n

/-- The key list of a dict, in insertion order. -/
def keys {α : Type} (d : List (Name × α)) : List Name := d.map Prod.fst

/-- Structural invariants that every graph built by a sequence of `add_edge`
calls satisfies: node keys are unique, `_edges` and `_reverse` have the same
key set, edge multiplicities agree between the two dicts, and adjacency lists
mention only registered nodes. -/
structure WF (g : OperatorGraph) : Prop where
  nodupN : (nodes g).Nodup
  keysEq : ∀ n, n ∈ keys g.edges ↔ n ∈ nodes g
  counts : ∀ a b, (children g a).count b = (parents g b).count a
  closedE : ∀ a b, b ∈ children g a → b ∈ nodes g
  closedR : ∀ a b, a ∈ parents g b → a ∈ nodes g

/-- A neighbor `x` gets pushed onto the queue during a `processNeighbors`
pass over `ns` exactly when its current indegree `c` satisfies
`1 ≤ c ≤ count of x in ns` (the running decrements then make it hit `0`). -/
def ReadyAt (indeg : List (Name × Int)) (ns : List Name) (x : Name) : Prop :=
  ∃ c, dget indeg x = some c ∧ 1 ≤ c ∧ c ≤ (ns.count x : Int)

/-- The invariant of the `while queue:` loop of `topological`, relative to a
well-formed graph `g`.  `indeg` is the local `indegree` dict, `queue` the
pending FIFO queue, `order` the output accumulated so far. -/
structure Inv (g : OperatorGraph) (indeg : List (Name × Int))
    (queue order : List Name) : Prop where
  keysI : keys indeg = nodes g
  vals : ∀ n c, dget indeg n = some c →
    c = ((parents g n).countP (fun p => decide (p ∉ order)) : Int)
  nodupOQ : (order ++ queue).Nodup
  zero : ∀ n, n ∈ order ++ queue → dget indeg n = some 0
  memN : ∀ n, n ∈ order ++ queue → n ∈ nodes g
  compl : ∀ n, n ∈ nodes g → dget indeg n = some 0 → n ∈ order ++ queue
  resp : ∀ a b, edgeRel g a b → b ∈ order →
    a ∈ order ∧ order.indexOf a < order.indexOf b
  qready : ∀ n, n ∈ queue → ∀ p, p ∈ parents g n → p ∈ order

/-- An entry of the `TraceRecorder` log. Modelled from the spec:
`TraceRecorder` lives in `runtime/tracing.py`, which is not in the source
tree; per the spec, `record(kind, payload)` appends an entry to an
append-only ordered log and `snapshot()` returns the full ordered log. -/
structure TraceEvent (π : Type) where
  kind : String
  payload : π
  deriving DecidableEq

/-- Modelled from the spec: `TraceRecorder.record(kind, payload)` appends. -/
def recordEvent {π : Type} (tr : List (TraceEvent π)) (kind : String) (payload : π) :
    List (TraceEvent π) := tr ++ [⟨kind, payload⟩]

/-- Modelled from the spec: `TraceRecorder.snapshot()` returns the full log. -/
def snapshot {π : Type} (tr : List (TraceEvent π)) : List (TraceEvent π) := tr

/-- The trace record dict `{"tick": self._tick, "op": name, "result": result}`. -/
structure Record (ρ : Type) where
  tick : Nat
  op : Name
  result : ρ
  deriving DecidableEq

/-- An exception escaping `GraphVM.run`: either a Python exception raised by
`run` itself or by `topological` (`ValueError`, `KeyError`), or the exception
raised by a faulting operator's `execute`, which `run` does not catch. -/
inductive RunError (ε : Type) where
  | pyExc (e : PyExc)
  | opFault (e : ε)
  deriving DecidableEq

/-- An operator's `execute(state, goal)`, which returns a result or raises.
The `Operator` class itself lives in `runtime/operators.py` (not in the
source tree); per the spec it is the capability contract
`execute(state, goal) -> result`. -/
def Op (σ γ ρ ε : Type) : Type := σ → γ → Except ε ρ

/-- `GraphVM` instance state: the operator library (modelled from the spec as
the name-to-Operator mapping that `OperatorLibrary.available()` returns,
`runtime/operators.py` not being in the source tree), the graph, the
`TraceRecorder` log, and the tick counter. -/
structure GraphVM (σ γ ρ ε : Type) where
  operators : Name → Option (Op σ γ ρ ε)
  graph : OperatorGraph
  trace : List (TraceEvent (Record ρ))
  tick : Nat

/-- `GraphVM.__init__(operators, graph)`: fresh recorder, tick `0`. -/
def mkVM {σ γ ρ ε : Type} (ops : Name → Option (Op σ γ ρ ε)) (g : OperatorGraph) :
    GraphVM σ γ ρ ε := ⟨ops, g, [], 0⟩

/-- The `for name in self._graph.topological():` loop of `GraphVM.run`.
On an unregistered name it raises `KeyError(f"operator {name} not
registered")`; a fault raised by `execute` propagates.  In both cases the
entries already recorded and the ticks already consumed stay in the VM state,
while the local `trace` list (`acc`) is discarded, as in Python. -/
def runLoop {σ γ ρ ε : Type} (s : σ) (goal : γ) :
    GraphVM σ γ ρ ε → List Name → List (Record ρ) →
    Except (RunError ε) (List (Record ρ)) × GraphVM σ γ ρ ε
  | vm, [], acc => (.ok acc, vm)
  | vm, name :: rest, acc =>
      match vm.operators name with
      | none => (.error (.pyExc ⟨"KeyError", "operator " ++ name ++ " not registered"⟩), vm)
      | some op =>
          match op s goal with
          | .error e => (.error (.opFault e), vm)
          | .ok result =>
              let r : Record ρ := ⟨vm.tick, name, result⟩
              runLoop s goal
                { vm with trace := recordEvent vm.trace "execute" r, tick := vm.tick + 1 }
                rest (acc ++ [r])

/-- `GraphVM.run(state, goal)`: returns the list of records on success, or the
escaping exception; the second component is the VM state after the call. -/
def run {σ γ ρ ε : Type} (vm : GraphVM σ γ ρ ε) (s : σ) (goal : γ) :
    Except (RunError ε) (List (Record ρ)) × GraphVM σ γ ρ ε :=
  match topological vm.graph with
  | .error e => (.error (.pyExc e), vm)
  | .ok order => runLoop s goal vm order []

/-- `GraphVM.replay_buffer()`:
`[entry["payload"] for entry in self._trace.snapshot()]`. -/
def replayBuffer {σ γ ρ ε : Type} (vm : GraphVM σ γ ρ ε) : List (Record ρ) :=
  (snapshot vm.trace).map (fun e => e.payload)

/-- A state type for concrete scenarios: a Python dict of strings; `{}` is `[]`. -/
abbrev DictState := List (String × String)

/-- The identity operator: `execute(state, goal)` returns `state`. -/
def idOp {σ γ ε : Type} : Op σ γ σ ε := fun s _ => .ok s

/-- A finite operator library given by an association list. -/
def libOf {σ γ ρ ε : Type} (l : List (Name × Op σ γ ρ ε)) : Name → Option (Op σ γ ρ ε) :=
  fun n => dget l n

-- Sanity checks of the embedding on concrete inputs.
example : topological (buildGraph [("n1", "n2"), ("n2", "n3")]) = .ok ["n1", "n2", "n3"] := by
  decide
example : topological (buildGraph [("a", "b"), ("a", "c")]) = .ok ["a", "b", "c"] := by
  decide
example : topological (buildGraph [("a", "c"), ("a", "b")]) = .ok ["a", "c", "b"] := by
  decide
example : topological (buildGraph [("a", "b"), ("b", "a")]) = .error cycleExc := by
  decide

/-! ### Association-list (Python dict) lemmas -/

@[simp] theorem keys_nil {α : Type} : keys ([] : List (Name × α)) = [] := rfl

@[simp] theorem keys_cons {α : Type} (p : Name × α) (t : List (Name × α)) :
    keys (p :: t) = p.1 :: keys t := rfl

theorem dget_eq_none {α : Type} {d : List (Name × α)} {k : Name} :
    dget d k = none ↔ k ∉ keys d := by
  induction d with
  | nil => simp [dget]
  | cons hd t ih =>
      obtain ⟨k', v⟩ := hd
      by_cases h : k' = k
      · subst h
        simp [dget]
      · simp [dget, h, ih, Ne.symm h]

theorem mem_keys_of_dget {α : Type} {d : List (Name × α)} {k : Name} {v : α}
    (h : dget d k = some v) : k ∈ keys d := by
  by_contra hk
  rw [← dget_eq_none] at hk
  simp [h] at hk

theorem mem_of_dget {α : Type} {d : List (Name × α)} {k : Name} {v : α}
    (h : dget d k = some v) : (k, v) ∈ d := by
  induction d with
  | nil => simp [dget] at h
  | cons hd t ih =>
      obtain ⟨k', v'⟩ := hd
      by_cases hk : k' = k
      · subst hk
        simp [dget] at h
        simp [h]
      · simp [dget, hk] at h
        simp [ih h]

theorem dget_of_mem_nodup {α : Type} {d : List (Name × α)} {k : Name} {v : α}
    (hnd : (keys d).Nodup) (h : (k, v) ∈ d) : dget d k = some v := by
  induction d with
  | nil => simp at h
  | cons hd t ih =>
      obtain ⟨k', v'⟩ := hd
      have hnd' : k' ∉ keys t ∧ (keys t).Nodup := by simpa using hnd
      rcases List.mem_cons.mp h with h1 | h1
      · injection h1 with e1 e2
        subst e1
        subst e2
        simp [dget]
      · have hkmem : k ∈ keys t := List.mem_map_of_mem Prod.fst h1
        have hk : k' ≠ k := fun e => hnd'.1 (by rw [e]; exact hkmem)
        simp [dget, hk, ih hnd'.2 h1]

theorem dget_map {α β : Type} (f : α → β) (d : List (Name × α)) (k : Name) :
    dget (d.map (fun p => (p.1, f p.2))) k = (dget d k).map f := by
  induction d with
  | nil => simp [dget]
  | cons hd t ih =>
      obtain ⟨k', v⟩ := hd
      by_cases h : k' = k <;> simp [dget, h, ih]

theorem keys_dsetApp (d : List (Name × List Name)) (k v : Name) :
    keys (dsetApp d k v) = if k ∈ keys d then keys d else keys d ++ [k] := by
  induction d with
  | nil => simp [dsetApp]
  | cons hd t ih =>
      obtain ⟨k', vs⟩ := hd
      by_cases h : k' = k
      · subst h
        simp [dsetApp]
      · simp only [dsetApp, if_neg h, keys_cons]
        rw [ih]
        by_cases h2 : k ∈ keys t <;> simp [h2, Ne.symm h]

theorem dget_dsetApp (d : List (Name × List Name)) (k v k' : Name) :
    dget (dsetApp d k v) k' =
      if k' = k then some ((dget d k).getD [] ++ [v]) else dget d k' := by
  induction d with
  | nil =>
      by_cases h : k' = k
      · subst h
        simp [dsetApp, dget]
      · simp [dsetApp, dget, h, Ne.symm h]
  | cons hd t ih =>
      obtain ⟨k₀, vs⟩ := hd
      by_cases h0 : k₀ = k
      · subst h0
        by_cases h : k' = k₀
        · subst h
          simp [dsetApp, dget]
        · simp [dsetApp, dget, h, Ne.symm h]
      · by_cases h1 : k₀ = k'
        · subst h1
          simp [dsetApp, dget, h0, Ne.symm h0]
        · simp [dsetApp, dget, h0, h1, ih]

theorem keys_dsetNil (d : List (Name × List Name)) (k : Name) :
    keys (dsetNil d k) = if k ∈ keys d then keys d else keys d ++ [k] := by
  induction d with
  | nil => simp [dsetNil]
  | cons hd t ih =>
      obtain ⟨k', vs⟩ := hd
      by_cases h : k' = k
      · subst h
        simp [dsetNil]
      · simp only [dsetNil, if_neg h, keys_cons]
        rw [ih]
        by_cases h2 : k ∈ keys t <;> simp [h2, Ne.symm h]

theorem dget_dsetNil (d : List (Name × List Name)) (k k' : Name) :
    dget (dsetNil d k) k' =
      if k' = k then some ((dget d k).getD []) else dget d k' := by
  induction d with
  | nil =>
      by_cases h : k' = k
      · subst h
        simp [dsetNil, dget]
      · simp [dsetNil, dget, h, Ne.symm h]
  | cons hd t ih =>
      obtain ⟨k₀, vs⟩ := hd
      by_cases h0 : k₀ = k
      · subst h0
        by_cases h : k' = k₀
        · subst h
          simp [dsetNil, dget]
        · simp [dsetNil, dget, h, Ne.symm h]
      · by_cases h1 : k₀ = k'
        · subst h1
          simp [dsetNil, dget, h0, Ne.symm h0]
        · simp [dsetNil, dget, h0, h1, ih]

theorem keys_decKey (d : List (Name × Int)) (k : Name) :
    keys (decKey d k) = keys d := by
  induction d with
  | nil => simp [decKey]
  | cons hd t ih =>
      obtain ⟨k', c⟩ := hd
      by_cases h : k' = k <;> simp [decKey, h, ih]

theorem dget_decKey (d : List (Name × Int)) (k k' : Name) :
    dget (decKey d k) k' =
      if k' = k then (dget d k).map (fun c => c - 1) else dget d k' := by
  induction d with
  | nil =>
      by_cases h : k' = k <;> simp [decKey, dget, h]
  | cons hd t ih =>
      obtain ⟨k₀, c⟩ := hd
      by_cases h0 : k₀ = k
      · subst h0
        by_cases h : k' = k₀
        · subst h
          simp [decKey, dget]
        · simp [decKey, dget, h, Ne.symm h]
      · by_cases h1 : k₀ = k'
        · subst h1
          simp [decKey, dget, h0, Ne.symm h0]
        · simp [decKey, dget, h0, h1, ih]

/-! ### Well-formedness of graphs built by `add_edge` -/

theorem children_addEdge (g : OperatorGraph) (s d a : Name) :
    children (addEdge g s d) a = children g a ++ (if a = s then [d] else []) := by
  unfold children addEdge
  simp only [dget_dsetNil, dget_dsetApp]
  by_cases h2 : a = s
  · subst h2
    by_cases h1 : a = d
    · subst h1
      simp
    · simp [h1]
  · by_cases h1 : a = d
    · subst h1
      simp [h2]
    · simp [h1, h2]

theorem parents_addEdge (g : OperatorGraph) (s d b : Name) :
    parents (addEdge g s d) b = parents g b ++ (if b = d then [s] else []) := by
  unfold parents addEdge
  simp only [dget_dsetNil, dget_dsetApp]
  by_cases h2 : b = d
  · subst h2
    by_cases h1 : b = s
    · subst h1
      simp
    · simp [h1]
  · by_cases h1 : b = s
    · subst h1
      simp [h2]
    · simp [h1, h2]

theorem mem_keys_dsetApp (d : List (Name × List Name)) (k v n : Name) :
    n ∈ keys (dsetApp d k v) ↔ n ∈ keys d ∨ n = k := by
  rw [keys_dsetApp]
  by_cases h : k ∈ keys d
  · rw [if_pos h]
    constructor
    · exact Or.inl
    · rintro (hn | rfl)
      · exact hn
      · exact h
  · rw [if_neg h]
    simp

theorem mem_keys_dsetNil (d : List (Name × List Name)) (k n : Name) :
    n ∈ keys (dsetNil d k) ↔ n ∈ keys d ∨ n = k := by
  rw [keys_dsetNil]
  by_cases h : k ∈ keys d
  · rw [if_pos h]
    constructor
    · exact Or.inl
    · rintro (hn | rfl)
      · exact hn
      · exact h
  · rw [if_neg h]
    simp

theorem mem_nodes_addEdge (g : OperatorGraph) (s d n : Name) :
    n ∈ nodes (addEdge g s d) ↔ n ∈ nodes g ∨ n = d ∨ n = s := by
  have hn : nodes g = keys g.reverse := rfl
  show n ∈ keys (dsetNil (dsetApp g.reverse d s) s) ↔ _
  rw [mem_keys_dsetNil, mem_keys_dsetApp, hn]
  tauto

theorem mem_keys_edges_addEdge (g : OperatorGraph) (s d n : Name) :
    n ∈ keys (addEdge g s d).edges ↔ n ∈ keys g.edges ∨ n = s ∨ n = d := by
  show n ∈ keys (dsetNil (dsetApp g.edges s d) d) ↔ _
  rw [mem_keys_dsetNil, mem_keys_dsetApp]
  tauto

theorem nodes_nodup_addEdge (g : OperatorGraph) (s d : Name)
    (h : (nodes g).Nodup) : (nodes (addEdge g s d)).Nodup := by
  have h' : (keys g.reverse).Nodup := h
  show (keys (dsetNil (dsetApp g.reverse d s) s)).Nodup
  rw [keys_dsetNil, keys_dsetApp]
  by_cases h1 : d ∈ keys g.reverse
  · rw [if_pos h1]
    by_cases h2 : s ∈ keys g.reverse
    · rw [if_pos h2]
      exact h'
    · rw [if_neg h2]
      simp [List.nodup_append, h', h2]
  · rw [if_neg h1]
    by_cases h2 : s ∈ keys g.reverse ++ [d]
    · rw [if_pos h2]
      simp [List.nodup_append, h', h1]
    · rw [if_neg h2]
      simp only [List.mem_append, List.mem_singleton] at h2
      push_neg at h2
      simp [List.nodup_append, h', h1, h2.1, h2.2, Ne.symm h2.2]

theorem wf_addEdge {g : OperatorGraph} (s d : Name) (hg : WF g) :
    WF (addEdge g s d) := by
  refine ⟨nodes_nodup_addEdge g s d hg.nodupN, ?_, ?_, ?_, ?_⟩
  · intro n
    rw [mem_keys_edges_addEdge, mem_nodes_addEdge]
    rw [hg.keysEq n]
    tauto
  · intro a b
    rw [children_addEdge, parents_addEdge, List.count_append, List.count_append,
      hg.counts a b]
    by_cases h1 : a = s <;> by_cases h2 : b = d <;>
      simp [h1, h2, List.count_singleton, List.count_cons]
  · intro a b hb
    rw [children_addEdge] at hb
    rw [mem_nodes_addEdge]
    rcases List.mem_append.mp hb with hb | hb
    · exact Or.inl (hg.closedE a b hb)
    · by_cases h1 : a = s
      · simp [h1] at hb
        tauto
      · simp [h1] at hb
  · intro a b ha
    rw [parents_addEdge] at ha
    rw [mem_nodes_addEdge]
    rcases List.mem_append.mp ha with ha | ha
    · exact Or.inl (hg.closedR a b ha)
    · by_cases h1 : b = d
      · simp [h1] at ha
        tauto
      · simp [h1] at ha

theorem wf_empty : WF OperatorGraph.empty := by
  refine ⟨?_, ?_, ?_, ?_, ?_⟩ <;>
    simp [OperatorGraph.empty, nodes, children, parents, dget]

theorem wf_buildGraph (l : List (Name × Name)) : WF (buildGraph l) := by
  suffices h : ∀ g, WF g → WF (l.foldl (fun g e => addEdge g e.1 e.2) g) by
    exact h OperatorGraph.empty wf_empty
  induction l with
  | nil => intro g hg; simpa using hg
  | cons e t ih =>
      intro g hg
      exact ih (addEdge g e.1 e.2) (wf_addEdge e.1 e.2 hg)

/-- An edge occurrence relates nodes of the graph. -/
theorem edgeRel_mem {g : OperatorGraph} (hg : WF g) {a b : Name}
    (h : edgeRel g a b) : a ∈ nodes g ∧ b ∈ nodes g := by
  have hb : b ∈ children g a := h
  refine ⟨?_, hg.closedE a b hb⟩
  have ha : a ∈ parents g b := by
    have := hg.counts a b
    have hcount : 0 < (children g a).count b := List.count_pos_iff_mem.mpr hb
    rw [this] at hcount
    exact List.count_pos_iff_mem.mp hcount
  exact hg.closedR a b ha

/-- Edges seen through `_edges` and through `_reverse` agree. -/
theorem edgeRel_iff_parent {g : OperatorGraph} (hg : WF g) {a b : Name} :
    edgeRel g a b ↔ a ∈ parents g b := by
  constructor
  · intro h
    have hcount : 0 < (children g a).count b := List.count_pos_iff_mem.mpr h
    rw [hg.counts a b] at hcount
    exact List.count_pos_iff_mem.mp hcount
  · intro h
    have hcount : 0 < (parents g b).count a := List.count_pos_iff_mem.mpr h
    rw [← hg.counts a b] at hcount
    exact List.count_pos_iff_mem.mp hcount

/-! ### `processNeighbors` lemmas -/

@[simp] theorem posSum_nil : posSum [] = 0 := rfl

@[simp] theorem posSum_cons (k : Name) (c : Int) (t : List (Name × Int)) :
    posSum ((k, c) :: t) = c.toNat + posSum t := rfl

theorem posSum_decKey_le (d : List (Name × Int)) (k : Name) :
    posSum (decKey d k) ≤ posSum d := by
  induction d with
  | nil => simp [decKey]
  | cons hd t ih =>
      obtain ⟨k', c⟩ := hd
      by_cases h : k' = k
      · simp only [decKey, if_pos h, posSum_cons]
        have : (c - 1).toNat ≤ c.toNat := Int.toNat_le_toNat (by omega)
        omega
      · simp only [decKey, if_neg h, posSum_cons]
        omega

theorem posSum_decKey_one {d : List (Name × Int)} {k : Name}
    (h : dget d k = some 1) : posSum (decKey d k) + 1 ≤ posSum d := by
  induction d with
  | nil => simp [dget] at h
  | cons hd t ih =>
      obtain ⟨k', c⟩ := hd
      by_cases hk : k' = k
      · rw [show dget ((k', c) :: t) k = some c from by simp [dget, hk]] at h
        injection h with h
        subst h
        simp [decKey, hk]
        omega
      · simp only [dget, if_neg hk] at h
        simp only [decKey, if_neg hk, posSum_cons]
        have := ih h
        omega

theorem pn_keys (ns : List Name) : ∀ indeg q,
    keys (processNeighbors indeg q ns).1 = keys indeg := by
  induction ns with
  | nil => intro indeg q; rfl
  | cons nb rest ih =>
      intro indeg q
      simp only [processNeighbors]
      rw [ih, keys_decKey]

theorem pn_measure (ns : List Name) : ∀ indeg q,
    posSum (processNeighbors indeg q ns).1 + (processNeighbors indeg q ns).2.length ≤
      posSum indeg + q.length := by
  induction ns with
  | nil => intro indeg q; simp [processNeighbors]
  | cons nb rest ih =>
      intro indeg q
      simp only [processNeighbors]
      by_cases hc : dget (decKey indeg nb) nb = some 0
      · rw [if_pos hc]
        rw [dget_decKey, if_pos rfl] at hc
        obtain ⟨c, hcg, hc1⟩ := Option.map_eq_some'.mp hc
        have hone : dget indeg nb = some 1 := by
          rw [hcg]
          congr 1
          omega
        have h2 := posSum_decKey_one hone
        have h3 := ih (decKey indeg nb) (q ++ [nb])
        simp only [List.length_append, List.length_singleton] at h3
        omega
      · rw [if_neg hc]
        have h2 := posSum_decKey_le indeg nb
        have h3 := ih (decKey indeg nb) q
        omega

theorem pn_fst (ns : List Name) : ∀ indeg q x,
    dget (processNeighbors indeg q ns).1 x =
      (dget indeg x).map (fun c => c - (ns.count x : Int)) := by
  induction ns with
  | nil =>
      intro indeg q x
      simp only [processNeighbors]
      cases dget indeg x <;> simp
  | cons nb rest ih =>
      intro indeg q x
      simp only [processNeighbors]
      rw [ih, dget_decKey]
      by_cases hx : x = nb
      · subst hx
        rw [if_pos rfl]
        cases dget indeg x <;> simp [List.count_cons]
        omega
      · rw [if_neg hx]
        cases dget indeg x <;> simp [List.count_cons, hx]

theorem pn_extends (ns : List Name) : ∀ indeg q,
    ∃ p, (processNeighbors indeg q ns).2 = q ++ p := by
  induction ns with
  | nil => intro indeg q; exact ⟨[], by simp [processNeighbors]⟩
  | cons nb rest ih =>
      intro indeg q
      simp only [processNeighbors]
      by_cases hc : dget (decKey indeg nb) nb = some 0
      · rw [if_pos hc]
        obtain ⟨p, hp⟩ := ih (decKey indeg nb) (q ++ [nb])
        exact ⟨nb :: p, by rw [hp]; simp⟩
      · rw [if_neg hc]
        exact ih (decKey indeg nb) q

theorem pn_pre_step {indeg : List (Name × Int)} {nb : Name} {rest : List Name}
    (pre : ∀ x c, dget indeg x = some c → ((nb :: rest).count x : Int) ≤ c) :
    ∀ x c, dget (decKey indeg nb) x = some c → ((rest).count x : Int) ≤ c := by
  intro x c h
  rw [dget_decKey] at h
  by_cases hx : x = nb
  · subst hx
    rw [if_pos rfl] at h
    obtain ⟨c0, hc0, hc1⟩ := Option.map_eq_some'.mp h
    have := pre x c0 hc0
    simp [List.count_cons] at this ⊢
    omega
  · rw [if_neg hx] at h
    have := pre x c h
    simp [List.count_cons, hx] at this
    omega

theorem pn_mem (ns : List Name) : ∀ indeg q,
    (∀ x c, dget indeg x = some c → (ns.count x : Int) ≤ c) →
    ∀ x, x ∈ (processNeighbors indeg q ns).2 ↔ x ∈ q ∨ ReadyAt indeg ns x := by
  induction ns with
  | nil =>
      intro indeg q _ x
      simp only [processNeighbors]
      constructor
      · exact Or.inl
      · rintro (hx | ⟨c, _, hc1, hc2⟩)
        · exact hx
        · simp at hc2
          omega
  | cons nb rest ih =>
      intro indeg q pre x
      simp only [processNeighbors]
      have pre' := pn_pre_step pre
      by_cases hc : dget (decKey indeg nb) nb = some 0
      · rw [if_pos hc]
        rw [dget_decKey, if_pos rfl] at hc
        obtain ⟨c0, hc0, hc1⟩ := Option.map_eq_some'.mp hc
        have hone : dget indeg nb = some 1 := by
          rw [hc0]; congr 1; omega
        rw [ih (decKey indeg nb) (q ++ [nb]) pre' x]
        by_cases hx : x = nb
        · subst hx
          constructor
          · intro h
            right
            exact ⟨1, hone, le_refl 1, by simp [List.count_cons]⟩
          · intro h
            left
            simp
        · simp only [List.mem_append, List.mem_singleton]
          constructor
          · rintro ((hq | hx') | ⟨c, hcg, hc2, hc3⟩)
            · exact Or.inl hq
            · exact absurd hx' hx
            · rw [dget_decKey, if_neg hx] at hcg
              right
              refine ⟨c, hcg, hc2, ?_⟩
              simp [List.count_cons, hx] at hc3 ⊢
              omega
          · rintro (hq | ⟨c, hcg, hc2, hc3⟩)
            · exact Or.inl (Or.inl hq)
            · right
              refine ⟨c, ?_, hc2, ?_⟩
              · rw [dget_decKey, if_neg hx]
                exact hcg
              · simp [List.count_cons, hx] at hc3 ⊢
                omega
      · rw [if_neg hc]
        rw [ih (decKey indeg nb) q pre' x]
        by_cases hx : x = nb
        · subst hx
          constructor
          · rintro (hq | ⟨c, hcg, hc2, hc3⟩)
            · exact Or.inl hq
            · rw [dget_decKey, if_pos rfl] at hcg
              obtain ⟨c0, hc0, hc1⟩ := Option.map_eq_some'.mp hcg
              right
              refine ⟨c0, hc0, by omega, ?_⟩
              simp [List.count_cons] at hc3 ⊢
              omega
          · rintro (hq | ⟨c, hcg, hc2, hc3⟩)
            · exact Or.inl hq
            · right
              have hne : c ≠ 1 := by
                intro h1
                subst h1
                rw [dget_decKey, if_pos rfl, hcg] at hc
                simp at hc
              refine ⟨c - 1, ?_, by omega, ?_⟩
              · rw [dget_decKey, if_pos rfl, hcg]
                rfl
              · simp [List.count_cons] at hc3 ⊢
                omega
        · constructor
          · rintro (hq | ⟨c, hcg, hc2, hc3⟩)
            · exact Or.inl hq
            · rw [dget_decKey, if_neg hx] at hcg
              right
              refine ⟨c, hcg, hc2, ?_⟩
              simp [List.count_cons, hx] at hc3 ⊢
              omega
          · rintro (hq | ⟨c, hcg, hc2, hc3⟩)
            · exact Or.inl hq
            · right
              refine ⟨c, ?_, hc2, ?_⟩
              · rw [dget_decKey, if_neg hx]
                exact hcg
              · simp [List.count_cons, hx] at hc3 ⊢
                omega

theorem pn_nodup_zero (ns : List Name) : ∀ indeg q,
    (∀ x c, dget indeg x = some c → (ns.count x : Int) ≤ c) →
    q.Nodup → (∀ x, x ∈ q → dget indeg x = some 0) →
    (processNeighbors indeg q ns).2.Nodup ∧
      ∀ x, x ∈ (processNeighbors indeg q ns).2 →
        dget (processNeighbors indeg q ns).1 x = some 0 := by
  induction ns with
  | nil =>
      intro indeg q _ hq hz
      exact ⟨hq, hz⟩
  | cons nb rest ih =>
      intro indeg q pre hq hz
      simp only [processNeighbors]
      have pre' := pn_pre_step pre
      by_cases hc : dget (decKey indeg nb) nb = some 0
      · rw [if_pos hc]
        have hone : dget indeg nb = some 1 := by
          rw [dget_decKey, if_pos rfl] at hc
          obtain ⟨c0, hc0, hc1⟩ := Option.map_eq_some'.mp hc
          rw [hc0]; congr 1; omega
        have hnbq : nb ∉ q := by
          intro hmem
          rw [hz nb hmem] at hone
          simp at hone
        have hq' : (q ++ [nb]).Nodup := by
          simp [List.nodup_append, hq, hnbq]
        have hz' : ∀ x, x ∈ q ++ [nb] → dget (decKey indeg nb) x = some 0 := by
          intro x hx
          rcases List.mem_append.mp hx with hx1 | hx1
          · have hxnb : x ≠ nb := fun h => hnbq (h ▸ hx1)
            rw [dget_decKey, if_neg hxnb]
            exact hz x hx1
          · simp only [List.mem_singleton] at hx1
            subst hx1
            exact hc
        exact ih (decKey indeg nb) (q ++ [nb]) pre' hq' hz'
      · rw [if_neg hc]
        have hz' : ∀ x, x ∈ q → dget (decKey indeg nb) x = some 0 := by
          intro x hx
          have hxnb : x ≠ nb := by
            intro h
            subst h
            have h0 := hz x hx
            have := pre x 0 h0
            simp [List.count_cons] at this
            omega
          rw [dget_decKey, if_neg hxnb]
          exact hz x hx
        exact ih (decKey indeg nb) q pre' hq hz'

/-! ### Kahn loop lemmas -/

theorem dget_isSome_of_mem {α : Type} {d : List (Name × α)} {n : Name}
    (h : n ∈ keys d) : ∃ v, dget d n = some v := by
  cases hd : dget d n with
  | none => exact absurd (dget_eq_none.mp hd) (by simpa using h)
  | some v => exact ⟨v, rfl⟩

theorem count_le_countP {l : List Name} {a : Name} {pr : Name → Bool}
    (h : pr a = true) : l.count a ≤ l.countP pr := by
  induction l with
  | nil => simp
  | cons x t ih =>
      by_cases hx : x = a
      · subst hx
        simp [List.count_cons, List.countP_cons, h]
        omega
      · simp [List.count_cons, List.countP_cons, hx]
        split <;> omega

theorem countP_notin_append {order : List Name} {node : Name}
    (hnode : node ∉ order) (l : List Name) :
    l.countP (fun p => decide (p ∉ order)) =
      l.countP (fun p => decide (p ∉ order ++ [node])) + l.count node := by
  induction l with
  | nil => simp
  | cons x t ih =>
      rw [List.countP_cons, List.countP_cons, List.count_cons, ih]
      by_cases hx : x = node
      · subst hx
        have h1 : decide (x ∉ order) = true := decide_eq_true hnode
        have h2 : decide (x ∉ order ++ [x]) = false := by simp
        have h3 : (x == x) = true := by simp
        rw [h1, h2, h3]
        simp
        omega
      · have h2 : decide (x ∉ order ++ [node]) = decide (x ∉ order) :=
          decide_eq_decide.mpr (by simp [hx])
        have h3 : (x == node) = false := by
          simpa using hx
        rw [h2, h3]
        simp
        omega

theorem kahn_extends (g : OperatorGraph) : ∀ fuel indeg queue order,
    ∃ s, kahnLoop g fuel indeg queue order = order ++ s := by
  intro fuel
  induction fuel with
  | zero => intro _ q o; exact ⟨[], by simp [kahnLoop]⟩
  | succ fuel ih =>
      intro indeg queue order
      cases queue with
      | nil => exact ⟨[], by simp [kahnLoop]⟩
      | cons node rest =>
          simp only [kahnLoop]
          obtain ⟨s, hs⟩ := ih _ _ (order ++ [node])
          exact ⟨node :: s, by rw [hs]; simp⟩

theorem kahn_leading (g : OperatorGraph) : ∀ (q₁ : List Name) fuel q₂ indeg order,
    q₁.length ≤ fuel →
    ∃ s, kahnLoop g fuel indeg (q₁ ++ q₂) order = (order ++ q₁) ++ s := by
  intro q₁
  induction q₁ with
  | nil =>
      intro fuel q₂ indeg order _
      simpa using kahn_extends g fuel indeg q₂ order
  | cons x t ih =>
      intro fuel q₂ indeg order hf
      cases fuel with
      | zero => simp at hf
      | succ fuel =>
          simp only [List.cons_append, kahnLoop, List.append_eq]
          obtain ⟨p, hp⟩ :=
            pn_extends ((dget g.edges x).getD []) indeg (t ++ q₂)
          have hq2 : (processNeighbors indeg (t ++ q₂) ((dget g.edges x).getD [])).2
              = t ++ (q₂ ++ p) := by rw [hp, List.append_assoc]
          rw [hq2]
          obtain ⟨s, hs⟩ := ih fuel (q₂ ++ p) (processNeighbors indeg (t ++ q₂)
            ((dget g.edges x).getD [])).1 (order ++ [x]) (by simp at hf; omega)
          exact ⟨s, by rw [hs]; simp⟩

theorem inv_step {g : OperatorGraph} (hg : WF g)
    {indeg : List (Name × Int)} {node : Name} {rest order : List Name}
    (hinv : Inv g indeg (node :: rest) order) :
    Inv g (processNeighbors indeg rest (children g node)).1
      (processNeighbors indeg rest (children g node)).2 (order ++ [node]) := by
  obtain ⟨hordN, hqN, hdisj⟩ := List.nodup_append.mp hinv.nodupOQ
  have hnode_not_order : node ∉ order := fun h => hdisj h (List.mem_cons_self node rest)
  have hnode_not_rest : node ∉ rest := (List.nodup_cons.mp hqN).1
  have hrestN : rest.Nodup := (List.nodup_cons.mp hqN).2
  have pre : ∀ x c, dget indeg x = some c → ((children g node).count x : Int) ≤ c := by
    intro x c hx
    have hval := hinv.vals x c hx
    have hc : (children g node).count x = (parents g x).count node := hg.counts node x
    have hle : (parents g x).count node ≤
        (parents g x).countP (fun p => decide (p ∉ order)) :=
      count_le_countP (decide_eq_true hnode_not_order)
    omega
  have hz : ∀ x, x ∈ rest → dget indeg x = some 0 := fun x hx =>
    hinv.zero x (by simp [hx])
  have hpnz := pn_nodup_zero (children g node) indeg rest pre hrestN hz
  have hpmem := pn_mem (children g node) indeg rest pre
  have hpfst := pn_fst (children g node) indeg
  have hpkeys := pn_keys (children g node) indeg rest
  have vals' : ∀ n c, dget (processNeighbors indeg rest (children g node)).1 n = some c →
      c = ((parents g n).countP (fun p => decide (p ∉ order ++ [node])) : Int) := by
    intro n c h
    rw [hpfst] at h
    obtain ⟨c0, hc0, hcc⟩ := Option.map_eq_some'.mp h
    have hval := hinv.vals n c0 hc0
    have hcount : (children g node).count n = (parents g n).count node := hg.counts node n
    have hsplit := countP_notin_append hnode_not_order (parents g n)
    omega
  have zero' : ∀ n, n ∈ (order ++ [node]) ++ (processNeighbors indeg rest (children g node)).2 →
      dget (processNeighbors indeg rest (children g node)).1 n = some 0 := by
    intro n hn
    rcases List.mem_append.mp hn with hn1 | hn1
    · have hold : n ∈ order ++ node :: rest := by
        rcases List.mem_append.mp hn1 with h | h
        · exact List.mem_append.mpr (Or.inl h)
        · simp only [List.mem_singleton] at h
          subst h
          simp
      have h0 : dget indeg n = some 0 := hinv.zero n hold
      have hcnt0 : (children g node).count n = 0 := by
        have := pre n 0 h0
        omega
      rw [hpfst, h0]
      simp [hcnt0]
    · exact hpnz.2 n hn1
  have nodup' : ((order ++ [node]) ++ (processNeighbors indeg rest (children g node)).2).Nodup := by
    rw [List.nodup_append]
    refine ⟨?_, hpnz.1, ?_⟩
    · rw [List.nodup_append]
      refine ⟨hordN, List.nodup_singleton node, ?_⟩
      intro a ha hb
      simp only [List.mem_singleton] at hb
      subst hb
      exact hnode_not_order ha
    · intro a ha hb
      rcases (hpmem a).mp hb with h | h
      · rcases List.mem_append.mp ha with h1 | h1
        · exact hdisj h1 (by simp [h])
        · simp only [List.mem_singleton] at h1
          subst h1
          exact hnode_not_rest h
      · obtain ⟨c, hc, hc1, hc2⟩ := h
        have hnotm : a ∉ order ++ node :: rest := by
          intro hmem
          rw [hinv.zero a hmem] at hc
          injection hc with hc
          omega
        rcases List.mem_append.mp ha with h1 | h1
        · exact hnotm (List.mem_append.mpr (Or.inl h1))
        · simp only [List.mem_singleton] at h1
          subst h1
          exact hnotm (by simp)
  have memN' : ∀ n, n ∈ (order ++ [node]) ++ (processNeighbors indeg rest (children g node)).2 →
      n ∈ nodes g := by
    intro n hn
    rcases List.mem_append.mp hn with hn1 | hn1
    · rcases List.mem_append.mp hn1 with h | h
      · exact hinv.memN n (by simp [h])
      · simp only [List.mem_singleton] at h
        subst h
        exact hinv.memN n (by simp)
    · rcases (hpmem n).mp hn1 with h | h
      · exact hinv.memN n (by simp [h])
      · obtain ⟨c, hc, hc1, hc2⟩ := h
        have hpos : 0 < (children g node).count n := by omega
        exact hg.closedE node n (List.count_pos_iff.mp hpos)
  have compl' : ∀ n, n ∈ nodes g →
      dget (processNeighbors indeg rest (children g node)).1 n = some 0 →
      n ∈ (order ++ [node]) ++ (processNeighbors indeg rest (children g node)).2 := by
    intro n hn h0
    rw [hpfst] at h0
    obtain ⟨c0, hc0, hcc⟩ := Option.map_eq_some'.mp h0
    by_cases hcnt : (children g node).count n = 0
    · have hc00 : c0 = 0 := by omega
      have hmem := hinv.compl n hn (hc00 ▸ hc0)
      rcases List.mem_append.mp hmem with h | h
      · exact List.mem_append.mpr (Or.inl (List.mem_append.mpr (Or.inl h)))
      · rcases List.mem_cons.mp h with h | h
        · subst h
          exact List.mem_append.mpr (Or.inl (by simp))
        · exact List.mem_append.mpr (Or.inr ((hpmem n).mpr (Or.inl h)))
    · have hready : ReadyAt indeg (children g node) n :=
        ⟨c0, hc0, by omega, by omega⟩
      exact List.mem_append.mpr (Or.inr ((hpmem n).mpr (Or.inr hready)))
  have resp' : ∀ a b, edgeRel g a b → b ∈ order ++ [node] →
      a ∈ order ++ [node] ∧ (order ++ [node]).indexOf a < (order ++ [node]).indexOf b := by
    intro a b hab hb
    rcases List.mem_append.mp hb with hb1 | hb1
    · obtain ⟨hao, hidx⟩ := hinv.resp a b hab hb1
      refine ⟨List.mem_append.mpr (Or.inl hao), ?_⟩
      rw [List.indexOf_append_of_mem hao, List.indexOf_append_of_mem hb1]
      exact hidx
    · simp only [List.mem_singleton] at hb1
      subst hb1
      have hpar : a ∈ parents g b := (edgeRel_iff_parent hg).mp hab
      have hao : a ∈ order := hinv.qready b (by simp) a hpar
      refine ⟨List.mem_append.mpr (Or.inl hao), ?_⟩
      rw [List.indexOf_append_of_mem hao, List.indexOf_append_of_not_mem hnode_not_order]
      have hlt := List.indexOf_lt_length.mpr hao
      simp
      omega
  have qready' : ∀ n, n ∈ (processNeighbors indeg rest (children g node)).2 →
      ∀ p, p ∈ parents g n → p ∈ order ++ [node] := by
    intro n hn p hp
    have h0 := hpnz.2 n hn
    have hval := vals' n 0 h0
    have hcp : (parents g n).countP (fun q => decide (q ∉ order ++ [node])) = 0 := by
      omega
    have hnp := List.countP_eq_zero.mp hcp p hp
    simp only [List.mem_append, List.mem_singleton]
    simp at hnp
    tauto
  exact ⟨by rw [hpkeys]; exact hinv.keysI, vals', nodup', zero', memN', compl', resp', qready'⟩

theorem kahn_final {g : OperatorGraph} (hg : WF g) :
    ∀ fuel indeg queue order, posSum indeg + queue.length ≤ fuel →
      Inv g indeg queue order →
      ∃ indeg', Inv g indeg' [] (kahnLoop g fuel indeg queue order) := by
  intro fuel
  induction fuel with
  | zero =>
      intro indeg queue order hf hinv
      have hq : queue = [] := List.length_eq_zero.mp (by omega)
      subst hq
      exact ⟨indeg, by simpa [kahnLoop] using hinv⟩
  | succ fuel ih =>
      intro indeg queue order hf hinv
      cases queue with
      | nil => exact ⟨indeg, by simpa [kahnLoop] using hinv⟩
      | cons node rest =>
          simp only [kahnLoop]
          have hstep := inv_step hg hinv
          have hm := pn_measure (children g node) indeg rest
          have hf' : posSum (processNeighbors indeg rest (children g node)).1 +
              (processNeighbors indeg rest (children g node)).2.length ≤ fuel := by
            simp only [List.length_cons] at hf
            omega
          exact ih _ _ _ hf' hstep

theorem dget_indeg0 (g : OperatorGraph) (n : Name) :
    dget (indeg0 g) n = (dget g.reverse n).map (fun l => (l.length : Int)) := by
  unfold indeg0
  exact dget_map (fun l => (l.length : Int)) g.reverse n

theorem keys_indeg0 (g : OperatorGraph) : keys (indeg0 g) = nodes g := by
  simp [keys, indeg0, nodes, List.map_map]

theorem seed_perm (g : OperatorGraph) :
    (seed g).Perm (((indeg0 g).filter (fun p => p.2 == 0)).map Prod.fst) :=
  List.perm_insertionSort _ _

theorem inv_init {g : OperatorGraph} (hg : WF g) : Inv g (indeg0 g) (seed g) [] := by
  have hkeysN : (keys (indeg0 g)).Nodup := by
    rw [keys_indeg0]
    exact hg.nodupN
  have hzero : ∀ n, n ∈ seed g → dget (indeg0 g) n = some 0 := by
    intro n hn
    have hn2 := (seed_perm g).mem_iff.mp hn
    obtain ⟨p, hp, hfst⟩ := List.mem_map.mp hn2
    obtain ⟨hpmem, hpval⟩ := List.mem_filter.mp hp
    obtain ⟨k, c⟩ := p
    simp only at hfst
    subst hfst
    have hc : c = 0 := by simpa using hpval
    subst hc
    exact dget_of_mem_nodup hkeysN hpmem
  refine ⟨keys_indeg0 g, ?_, ?_, ?_, ?_, ?_, ?_, ?_⟩
  · intro n c h
    rw [dget_indeg0] at h
    obtain ⟨l, hl, hc⟩ := Option.map_eq_some'.mp h
    have hpar : parents g n = l := by simp [parents, hl]
    rw [hpar]
    rw [List.countP_eq_length.mpr (by intro a _; simp)]
    omega
  · simp only [List.nil_append]
    have h1 : List.Sublist (((indeg0 g).filter (fun p => p.2 == 0)).map Prod.fst)
        ((indeg0 g).map Prod.fst) :=
      List.Sublist.map Prod.fst (List.filter_sublist _)
    have h2 : (((indeg0 g).filter (fun p => p.2 == 0)).map Prod.fst).Nodup :=
      List.Nodup.sublist h1 hkeysN
    exact (seed_perm g).nodup_iff.mpr h2
  · intro n hn
    simp only [List.nil_append] at hn
    exact hzero n hn
  · intro n hn
    simp only [List.nil_append] at hn
    have := hzero n hn
    rw [← keys_indeg0]
    exact mem_keys_of_dget this
  · intro n hn h0
    have hmem := mem_of_dget h0
    have hfil : (n, (0 : Int)) ∈ (indeg0 g).filter (fun p => p.2 == 0) :=
      List.mem_filter.mpr ⟨hmem, by simp⟩
    have : n ∈ ((indeg0 g).filter (fun p => p.2 == 0)).map Prod.fst :=
      List.mem_map.mpr ⟨(n, 0), hfil, rfl⟩
    simp only [List.nil_append]
    exact (seed_perm g).mem_iff.mpr this
  · intro a b _ hb
    exact absurd hb (List.not_mem_nil b)
  · intro n hn p hp
    have h0 := hzero n hn
    rw [dget_indeg0] at h0
    obtain ⟨l, hl, hc⟩ := Option.map_eq_some'.mp h0
    have hl0 : l = [] := by
      have : l.length = 0 := by omega
      exact List.length_eq_zero.mp this
    rw [parents, hl, hl0] at hp
    exact absurd hp (List.not_mem_nil p)

/-- The loop and the final Inv, packaged at `topological`'s own fuel. -/
theorem topological_inv {g : OperatorGraph} (hg : WF g) :
    ∃ indeg', Inv g indeg' []
      (kahnLoop g (posSum (indeg0 g) + (seed g).length) (indeg0 g) (seed g) []) :=
  kahn_final hg _ _ _ _ (le_refl _) (inv_init hg)

theorem nodes_length_indeg0 (g : OperatorGraph) :
    (indeg0 g).length = (nodes g).length := by
  simp [indeg0, nodes]

theorem topological_cases (g : OperatorGraph) :
    topological g = .error cycleExc ∨ ∃ order, topological g = .ok order := by
  unfold topological
  split
  · exact Or.inl rfl
  · exact Or.inr ⟨_, rfl⟩

theorem topological_ok_spec {g : OperatorGraph} (hg : WF g) {order : List Name}
    (h : topological g = .ok order) :
    order.Perm (nodes g) ∧
      ∀ a b, edgeRel g a b → a ∈ order ∧ order.indexOf a < order.indexOf b := by
  obtain ⟨indeg', hinv⟩ := topological_inv hg
  unfold topological at h
  split at h
  · simp at h
  · rename_i hlen
    injection h with h
    subst h
    push_neg at hlen
    have hN : (kahnLoop g (posSum (indeg0 g) + (seed g).length) (indeg0 g)
        (seed g) []).Nodup := by simpa using hinv.nodupOQ
    have hsub : kahnLoop g (posSum (indeg0 g) + (seed g).length) (indeg0 g)
        (seed g) [] ⊆ nodes g := fun x hx => hinv.memN x (by simpa using hx)
    have hsp := hN.subperm hsub
    have hperm := hsp.perm_of_length_le (by rw [← nodes_length_indeg0, ← hlen])
    refine ⟨hperm, ?_⟩
    intro a b hab
    have hbN : b ∈ nodes g := (edgeRel_mem hg hab).2
    have hbo : b ∈ _ := hperm.mem_iff.mpr hbN
    exact hinv.resp a b hab hbo

theorem topological_error_value {g : OperatorGraph} {e : PyExc}
    (h : topological g = .error e) : e = cycleExc := by
  unfold topological at h
  split at h
  · injection h with h
    exact h.symm
  · simp at h

theorem transGen_first {g : OperatorGraph} {a b : Name}
    (h : Relation.TransGen (edgeRel g) a b) : ∃ c, edgeRel g a c := by
  induction h with
  | single h1 => exact ⟨_, h1⟩
  | tail h1 h2 ih => exact ih

theorem not_cyclic_of_ok {g : OperatorGraph} (hg : WF g) {order : List Name}
    (h : topological g = .ok order) : ¬ Cyclic g := by
  obtain ⟨hperm, hresp⟩ := topological_ok_spec hg h
  rintro ⟨n, hn⟩
  have key : ∀ a b, Relation.TransGen (edgeRel g) a b →
      a ∈ order ∧ order.indexOf a < order.indexOf b := by
    intro a b hab
    induction hab with
    | single h1 => exact hresp _ _ h1
    | tail h1 h2 ih =>
        obtain ⟨hc, hidx'⟩ := hresp _ _ h2
        obtain ⟨ha, hidx⟩ := ih
        exact ⟨ha, hidx.trans hidx'⟩
  obtain ⟨_, hidx⟩ := key n n hn
  omega

theorem cyclic_of_missing {g : OperatorGraph} (hg : WF g)
    {indeg' : List (Name × Int)} {order : List Name}
    (hinv : Inv g indeg' [] order)
    {n0 : Name} (hn0 : n0 ∈ nodes g) (hmiss : n0 ∉ order) : Cyclic g := by
  classical
  have key : ∀ n, n ∈ nodes g → n ∉ order →
      ∃ p, p ∈ nodes g ∧ p ∉ order ∧ edgeRel g p n := by
    intro n hn hni
    have hnk : n ∈ keys indeg' := by rw [hinv.keysI]; exact hn
    obtain ⟨c, hc⟩ := dget_isSome_of_mem hnk
    have hc0 : c ≠ 0 := by
      intro h
      subst h
      exact hni (by simpa using hinv.compl n hn hc)
    have hval := hinv.vals n c hc
    have hcp2 : 0 < (parents g n).countP (fun p => decide (p ∉ order)) := by omega
    obtain ⟨p, hp, hdec⟩ := List.countP_pos.mp hcp2
    refine ⟨p, hg.closedR p n hp, by simpa using hdec, (edgeRel_iff_parent hg).mpr hp⟩
  by_contra hcyc
  let T := {x // x ∈ (nodes g).toFinset}
  let r : T → T → Prop := fun x y => Relation.TransGen (edgeRel g) x.1 y.1
  haveI : IsTrans T r := ⟨fun _ _ _ h1 h2 => h1.trans h2⟩
  haveI : IsIrrefl T r := ⟨fun x hx => hcyc ⟨x.1, hx⟩⟩
  have hwf : WellFounded r := Finite.wellFounded_of_trans_of_irrefl r
  obtain ⟨m, hmS, hminimal⟩ := hwf.has_min {x : T | x.1 ∉ order}
    ⟨⟨n0, List.mem_toFinset.mpr hn0⟩, hmiss⟩
  obtain ⟨p, hpN, hpO, hpE⟩ := key m.1 (List.mem_toFinset.mp m.2) hmS
  exact hminimal ⟨p, List.mem_toFinset.mpr hpN⟩ hpO (Relation.TransGen.single hpE)

theorem cyclic_of_error {g : OperatorGraph} (hg : WF g) {e : PyExc}
    (h : topological g = .error e) : Cyclic g := by
  obtain ⟨indeg', hinv⟩ := topological_inv hg
  unfold topological at h
  split at h
  · rename_i hlen
    rcases Classical.em (∃ n, n ∈ nodes g ∧ n ∉ kahnLoop g
        (posSum (indeg0 g) + (seed g).length) (indeg0 g) (seed g) []) with hmiss | hall
    · obtain ⟨n, hnN, hno⟩ := hmiss
      exact cyclic_of_missing hg hinv hnN hno
    · exfalso
      push_neg at hall
      have hsub2 : nodes g ⊆ kahnLoop g (posSum (indeg0 g) + (seed g).length)
          (indeg0 g) (seed g) [] := fun x hx => hall x hx
      have hsub : kahnLoop g (posSum (indeg0 g) + (seed g).length) (indeg0 g)
          (seed g) [] ⊆ nodes g := fun x hx => hinv.memN x (by simpa using hx)
      have hN : (kahnLoop g (posSum (indeg0 g) + (seed g).length) (indeg0 g)
          (seed g) []).Nodup := by simpa using hinv.nodupOQ
      have h1 := (hN.subperm hsub).length_le
      have h2 := (hg.nodupN.subperm hsub2).length_le
      rw [nodes_length_indeg0] at hlen
      omega
  · simp at h

/-! ### Seed characterization (initial ready set) -/

theorem topological_seed_leading {g : OperatorGraph} {order : List Name}
    (h : topological g = .ok order) : ∃ rest, order = seed g ++ rest := by
  unfold topological at h
  split at h
  · simp at h
  · injection h with h
    subst h
    obtain ⟨s, hs⟩ := kahn_leading g (seed g) (posSum (indeg0 g) + (seed g).length)
      [] (indeg0 g) [] (by omega)
    rw [List.append_nil] at hs
    exact ⟨s, by rw [hs]; simp⟩

theorem seed_mem {g : OperatorGraph} (hg : WF g) (n : Name) :
    n ∈ seed g ↔ n ∈ nodes g ∧ parents g n = [] := by
  rw [(seed_perm g).mem_iff]
  constructor
  · intro h
    obtain ⟨p, hp, hfst⟩ := List.mem_map.mp h
    obtain ⟨hpmem, hpval⟩ := List.mem_filter.mp hp
    have hval0 : p.2 = 0 := by simpa using hpval
    have hpn : (n, (0 : Int)) ∈ indeg0 g := by
      have hpeq : p = (n, 0) := by
        cases p
        simp only at hfst hval0
        simp [hfst, hval0]
      rwa [hpeq] at hpmem
    have hkeysN : (keys (indeg0 g)).Nodup := by
      rw [keys_indeg0]
      exact hg.nodupN
    have hdg : dget (indeg0 g) n = some 0 := dget_of_mem_nodup hkeysN hpn
    refine ⟨by rw [← keys_indeg0]; exact mem_keys_of_dget hdg, ?_⟩
    rw [dget_indeg0] at hdg
    obtain ⟨l, hl, hc⟩ := Option.map_eq_some'.mp hdg
    have hl0 : l = [] := List.length_eq_zero.mp (by omega)
    simp [parents, hl, hl0]
  · rintro ⟨hn, hpar⟩
    have hnk : n ∈ keys (indeg0 g) := by
      rw [keys_indeg0]
      exact hn
    obtain ⟨v, hv⟩ := dget_isSome_of_mem hnk
    have hv0 : v = 0 := by
      rw [dget_indeg0] at hv
      obtain ⟨l, hl, hc⟩ := Option.map_eq_some'.mp hv
      have hl0 : l = [] := by
        simp only [parents, hl, Option.getD_some] at hpar
        exact hpar
      subst hl0
      simpa using hc.symm
    subst hv0
    exact List.mem_map.mpr ⟨(n, 0), List.mem_filter.mpr ⟨mem_of_dget hv, by simp⟩, rfl⟩

/-! ### `GraphVM.run` lemmas -/

theorem runLoop_ok_spec {σ γ ρ ε : Type} (s : σ) (goal : γ) :
    ∀ (names : List Name) (vm : GraphVM σ γ ρ ε) (acc : List (Record ρ))
      (tr : List (Record ρ)) (vm' : GraphVM σ γ ρ ε),
      runLoop s goal vm names acc = (.ok tr, vm') →
      ∃ recs, tr = acc ++ recs ∧
        vm'.operators = vm.operators ∧ vm'.graph = vm.graph ∧
        vm'.trace = vm.trace ++ recs.map (fun r => ⟨"execute", r⟩) ∧
        vm'.tick = vm.tick + recs.length ∧
        recs.map Record.op = names ∧
        recs.map Record.tick = List.range' vm.tick names.length := by
  intro names
  induction names with
  | nil =>
      intro vm acc tr vm' h
      simp only [runLoop, Prod.mk.injEq] at h
      obtain ⟨h1, h2⟩ := h
      injection h1 with h1
      subst h1
      subst h2
      exact ⟨[], by simp, rfl, rfl, by simp, by simp, rfl, by simp⟩
  | cons name rest ih =>
      intro vm acc tr vm' h
      simp only [runLoop] at h
      cases hop : vm.operators name with
      | none =>
          simp only [hop] at h
          simp at h
      | some op =>
          simp only [hop] at h
          cases hex : op s goal with
          | error e =>
              simp only [hex] at h
              simp at h
          | ok result =>
              simp only [hex] at h
              obtain ⟨recs, h1, h2, h3, h4, h5, h6, h7⟩ := ih _ _ _ _ h
              refine ⟨⟨vm.tick, name, result⟩ :: recs, ?_, by simpa using h2,
                by simpa using h3, ?_, ?_, ?_, ?_⟩
              · rw [h1]
                simp
              · rw [h4]
                simp [recordEvent]
              · rw [h5]
                simp only [List.length_cons]
                omega
              · simp [h6]
              · simp only [List.map_cons, List.length_cons, List.range'_succ]
                rw [h7]

theorem runLoop_advance {σ γ ρ ε : Type} (s : σ) (goal : γ) :
    ∀ (pre : List Name) (vm : GraphVM σ γ ρ ε) (acc : List (Record ρ)) (rest : List Name),
      (∀ m, m ∈ pre → ∃ f r, vm.operators m = some f ∧ f s goal = .ok r) →
      ∃ recs : List (Record ρ),
        recs.map Record.op = pre ∧ recs.length = pre.length ∧
        runLoop s goal vm (pre ++ rest) acc =
          runLoop s goal
            { vm with
              trace := vm.trace ++ recs.map (fun r => ⟨"execute", r⟩)
              tick := vm.tick + recs.length } rest (acc ++ recs) := by
  intro pre
  induction pre with
  | nil =>
      intro vm acc rest _
      refine ⟨[], rfl, rfl, ?_⟩
      simp
  | cons name pre' ih =>
      intro vm acc rest hok
      obtain ⟨f, r0, hf, hr⟩ := hok name (by simp)
      obtain ⟨recs, h1, h2, h3⟩ := ih
        { vm with
          trace := recordEvent vm.trace "execute" ⟨vm.tick, name, r0⟩
          tick := vm.tick + 1 }
        (acc ++ [⟨vm.tick, name, r0⟩]) rest (fun m hm => hok m (by simp [hm]))
      refine ⟨⟨vm.tick, name, r0⟩ :: recs, by simp [h1], by simp [h2], ?_⟩
      show runLoop s goal vm (name :: (pre' ++ rest)) acc = _
      simp only [runLoop, hf, hr]
      rw [h3]
      simp only [recordEvent, List.map_cons, List.length_cons]
      congr 1
      · congr 1
        · simp
        · omega
      · simp

theorem run_ok_spec {σ γ ρ ε : Type} {vm : GraphVM σ γ ρ ε} {s : σ} {goal : γ}
    {tr : List (Record ρ)} (h : (run vm s goal).1 = .ok tr) :
    (run vm s goal).2.operators = vm.operators ∧
    (run vm s goal).2.graph = vm.graph ∧
    (run vm s goal).2.trace = vm.trace ++ tr.map (fun r => ⟨"execute", r⟩) ∧
    (run vm s goal).2.tick = vm.tick + tr.length ∧
    ∃ order, topological vm.graph = .ok order ∧ tr.map Record.op = order ∧
      tr.map Record.tick = List.range' vm.tick tr.length := by
  cases ht : topological vm.graph with
  | error e =>
      have hrr : (run vm s goal).1 = .error (.pyExc e) := by
        unfold run
        rw [ht]
      rw [hrr] at h
      simp at h
  | ok order =>
      have hrr : run vm s goal = runLoop s goal vm order [] := by
        unfold run
        rw [ht]
      rw [hrr] at h ⊢
      have hpair : runLoop s goal vm order [] =
          ((runLoop s goal vm order []).1, (runLoop s goal vm order []).2) := rfl
      rw [h] at hpair
      obtain ⟨recs, h1, h2, h3, h4, h5, h6, h7⟩ :=
        runLoop_ok_spec s goal order vm [] tr _ hpair
      have hrecs : tr = recs := by simpa using h1
      subst hrecs
      have hlen : tr.length = order.length := by
        rw [← h6]
        simp
      exact ⟨h2, h3, h4, by rw [h5], order, rfl, h6, by rw [hlen]; exact h7⟩

theorem runLoop_trace_indep {σ γ ρ ε : Type} (s : σ) (goal : γ) :
    ∀ (names : List Name) (vm₁ vm₂ : GraphVM σ γ ρ ε) (acc : List (Record ρ)),
      vm₁.operators = vm₂.operators → vm₁.tick = vm₂.tick →
      (runLoop s goal vm₁ names acc).1 = (runLoop s goal vm₂ names acc).1 := by
  intro names
  induction names with
  | nil => intro vm₁ vm₂ acc _ _; rfl
  | cons name rest ih =>
      intro vm₁ vm₂ acc hops htick
      simp only [runLoop, hops, htick]
      cases hoo : vm₂.operators name with
      | none => simp [hoo]
      | some op =>
          simp only [hoo]
          cases hex : op s goal with
          | error e => simp [hex]
          | ok result =>
              simp only [hex]
              exact ih _ _ _ rfl rfl

/-! ### Claim theorems -/

/-- C1 (counterexample): two graphs built from the same edge set
`{a→b, a→c}` in different insertion orders return different sequences from
`topological()`, and the tie between the simultaneously ready nodes `b`, `c`
is not resolved lexicographically in the second graph.  This refutes the
claim that `topological()` is a pure function of the edge set with
lexicographic tie-breaking. -/
theorem c1_counterexample :
    ([(("a" : Name), ("b" : Name)), ("a", "c")]).Perm [("a", "c"), ("a", "b")] ∧
    topological (buildGraph [("a", "b"), ("a", "c")]) = .ok ["a", "b", "c"] ∧
    topological (buildGraph [("a", "c"), ("a", "b")]) = .ok ["a", "c", "b"] ∧
    (["a", "b", "c"] : List Name) ≠ ["a", "c", "b"] :=
  ⟨by decide, by decide, by decide, by decide⟩

/-- C1 (amended): `topological()` is a pure function of the edge insertion
sequence, and only the initially ready set is sorted: every successful
`topological()` run on a built graph begins with exactly the zero-indegree
nodes (the nodes with no parents) in lexicographic order; nodes becoming
ready later are appended in edge insertion order, so equal edge sets
inserted in different orders may produce different (valid) sequences. -/
theorem c1_amended_ready_order (l : List (Name × Name)) (order : List Name)
    (h : topological (buildGraph l) = .ok order) :
    ∃ ready rest, order = ready ++ rest ∧
      List.Sorted (· ≤ ·) ready ∧
      (∀ n, n ∈ ready ↔ n ∈ nodes (buildGraph l) ∧ parents (buildGraph l) n = []) := by
  obtain ⟨rest, hrest⟩ := topological_seed_leading h
  exact ⟨seed (buildGraph l), rest, hrest, List.sorted_insertionSort _ _,
    fun n => seed_mem (wf_buildGraph l) n⟩

/-- C1 (witness): the amended theorem at the concrete graph `{a→b, a→c}`. -/
theorem c1_witness :
    ∃ ready rest, (["a", "b", "c"] : List Name) = ready ++ rest ∧
      List.Sorted (· ≤ ·) ready ∧
      (∀ n, n ∈ ready ↔ n ∈ nodes (buildGraph [("a", "b"), ("a", "c")]) ∧
        parents (buildGraph [("a", "b"), ("a", "c")]) n = []) :=
  c1_amended_ready_order [("a", "b"), ("a", "c")] ["a", "b", "c"] (by decide)

/-- C2: evaluation of `GraphVM.run` at the claim's failing input.  Graph
`n0→n1`, `n0→n3`, `n1→n2` with zones `{A: [n1, n2]}, {B: [n3]}` and `n1`'s
operator raising `"boom"` (topological order `n0, n1, n3, n2`).  The code
propagates the exception out of `run` (the fault is surfaced to the caller),
but no `Fault` entry is recorded, and the operator `n3` of the independent
zone — although already ready and scheduled after the faulting `n1` — is
never executed and does not appear in the trace: the only recorded entry is
`n0`'s.  There is no zone containment in `GraphVM.run`. -/
theorem c2_fault_propagation :
    (run (σ := DictState) (γ := Unit) (ε := String)
        (mkVM (libOf [("n0", idOp), ("n1", fun _ _ => .error "boom"),
            ("n2", idOp), ("n3", idOp)])
          (buildGraph [("n0", "n1"), ("n0", "n3"), ("n1", "n2")])) [] ()).1 =
      .error (.opFault "boom") ∧
    ((run (σ := DictState) (γ := Unit) (ε := String)
        (mkVM (libOf [("n0", idOp), ("n1", fun _ _ => .error "boom"),
            ("n2", idOp), ("n3", idOp)])
          (buildGraph [("n0", "n1"), ("n0", "n3"), ("n1", "n2")])) [] ()).2).trace =
      [⟨"execute", ⟨0, "n0", []⟩⟩] :=
  ⟨by decide, by decide⟩

/-- C3: a graph `n1→n2→n3` with identity operators, run on state `{}`,
yields exactly the trace `[(0, n1, Ok {}), (1, n2, Ok {}), (2, n3, Ok {})]`
(records carry the operator's returned result; a record's presence is the
code's encoding of a successful, `Ok`, execution). -/
theorem c3_linear_chain_trace :
    (run (σ := DictState) (γ := Unit) (ε := String)
        (mkVM (libOf [("n1", idOp), ("n2", idOp), ("n3", idOp)])
          (buildGraph [("n1", "n2"), ("n2", "n3")])) [] ()).1 =
      .ok [⟨0, "n1", []⟩, ⟨1, "n2", []⟩, ⟨2, "n3", []⟩] := by
  decide

/-- C4 (counterexample): on the cycle `a→b→a`, `topological()` raises
`ValueError("cycle detected in operator graph")`; no class named
`GraphConstructionError` exists in the code. -/
theorem c4_counterexample :
    topological (buildGraph [("a", "b"), ("b", "a")]) =
      .error ⟨"ValueError", "cycle detected in operator graph"⟩ ∧
    "ValueError" ≠ "GraphConstructionError" :=
  ⟨by decide, by decide⟩

/-- C4 (amended): for every graph built by `add_edge`, `topological()`
raises `ValueError("cycle detected in operator graph")` exactly when the
graph contains a cycle — regardless of which edge closes the cycle — and
never raises on an acyclic graph. -/
theorem c4_cycle_iff_value_error (l : List (Name × Name)) :
    topological (buildGraph l) = .error cycleExc ↔ Cyclic (buildGraph l) := by
  constructor
  · exact fun h => cyclic_of_error (wf_buildGraph l) h
  · intro hc
    rcases topological_cases (buildGraph l) with h | ⟨order, h⟩
    · exact h
    · exact absurd hc (not_cyclic_of_ok (wf_buildGraph l) h)

/-- C5: replay determinism.  `GraphVM.run` is a pure function of the
operator library, the graph, the tick counter and the arguments: two VM
instances agreeing on those (regardless of any previously recorded trace)
return identical traces, so running the same graph with the same operators
and initial state twice produces byte-identical traces. -/
theorem c5_replay_determinism {σ γ ρ ε : Type} (vm₁ vm₂ : GraphVM σ γ ρ ε)
    (s : σ) (goal : γ)
    (hops : vm₁.operators = vm₂.operators) (hgr : vm₁.graph = vm₂.graph)
    (htick : vm₁.tick = vm₂.tick) :
    (run vm₁ s goal).1 = (run vm₂ s goal).1 := by
  unfold run
  rw [hgr]
  cases ht : topological vm₂.graph with
  | error e => rfl
  | ok order => exact runLoop_trace_indep s goal order vm₁ vm₂ [] hops htick

/-- C5 (witness): two fresh VMs over `n1→n2` — the second with an unrelated
pre-existing recorder entry — produce the same trace. -/
theorem c5_witness :
    (run (σ := DictState) (γ := Unit) (ε := String)
        (⟨libOf [("n1", idOp), ("n2", idOp)], buildGraph [("n1", "n2")], [], 0⟩ :
          GraphVM DictState Unit DictState String) [] ()).1 =
      (run (⟨libOf [("n1", idOp), ("n2", idOp)], buildGraph [("n1", "n2")],
          [⟨"execute", ⟨99, "zz", []⟩⟩], 0⟩ :
          GraphVM DictState Unit DictState String) [] ()).1 :=
  c5_replay_determinism _ _ _ _ rfl rfl rfl

/-- C6 (counterexample): with graph `n1→n2` and only `n1` registered, `run`
raises `KeyError("operator n2 not registered")` — not an
`UnknownOperatorError` — and only after `n1` has already executed and been
recorded (the trace holds one entry), so the error is not raised at
build/bind time before any operator of the run executes. -/
theorem c6_counterexample :
    (run (σ := DictState) (γ := Unit) (ε := String)
        (mkVM (libOf [("n1", idOp)]) (buildGraph [("n1", "n2")])) [] ()).1 =
      .error (.pyExc ⟨"KeyError", "operator n2 not registered"⟩) ∧
    ((run (σ := DictState) (γ := Unit) (ε := String)
        (mkVM (libOf [("n1", idOp)]) (buildGraph [("n1", "n2")])) [] ()).2).trace.length
      = 1 ∧
    "KeyError" ≠ "UnknownOperatorError" :=
  ⟨by decide, by decide, by decide⟩

/-- C6 (amended): if the graph references a name absent from the library,
`run` raises `KeyError(f"operator {name} not registered")` when that name is
reached in the topological order; every operator earlier in the order has
already executed and been recorded, and the tick has advanced past them. -/
theorem c6_unknown_operator_lazy {σ γ ρ ε : Type} (vm : GraphVM σ γ ρ ε)
    (s : σ) (goal : γ) (pre post : List Name) (name : Name)
    (horder : topological vm.graph = .ok (pre ++ name :: post))
    (hpre : ∀ m, m ∈ pre → ∃ f r, vm.operators m = some f ∧ f s goal = .ok r)
    (hname : vm.operators name = none) :
    (run vm s goal).1 =
      .error (.pyExc ⟨"KeyError", "operator " ++ name ++ " not registered"⟩) ∧
    ((run vm s goal).2).trace.map (fun e => e.payload.op) =
      vm.trace.map (fun e => e.payload.op) ++ pre ∧
    ((run vm s goal).2).tick = vm.tick + pre.length := by
  have hrr : run vm s goal = runLoop s goal vm (pre ++ name :: post) [] := by
    unfold run
    rw [horder]
  obtain ⟨recs, h1, h2, h3⟩ := runLoop_advance s goal pre vm [] (name :: post) hpre
  rw [hrr, h3]
  simp only [runLoop, hname]
  refine ⟨trivial, ?_, ?_⟩
  · simp only [List.map_append, List.map_map]
    rw [← h1]
    rfl
  · simp only [h2]

/-- C6 (witness): the amended theorem at the concrete graph `n1→n2` with
only `n1` registered. -/
theorem c6_witness :
    (run (σ := DictState) (γ := Unit) (ε := String)
        (mkVM (libOf [("n1", idOp)]) (buildGraph [("n1", "n2")])) [] ()).1 =
      .error (.pyExc ⟨"KeyError", "operator " ++ "n2" ++ " not registered"⟩) ∧
    ((run (σ := DictState) (γ := Unit) (ε := String)
        (mkVM (libOf [("n1", idOp)]) (buildGraph [("n1", "n2")])) [] ()).2).trace.map
        (fun e => e.payload.op) =
      (mkVM (σ := DictState) (γ := Unit) (ε := String) (libOf [("n1", idOp)])
          (buildGraph [("n1", "n2")])).trace.map (fun e => e.payload.op) ++ ["n1"] ∧
    ((run (σ := DictState) (γ := Unit) (ε := String)
        (mkVM (libOf [("n1", idOp)]) (buildGraph [("n1", "n2")])) [] ()).2).tick =
      (mkVM (σ := DictState) (γ := Unit) (ε := String) (libOf [("n1", idOp)])
          (buildGraph [("n1", "n2")])).tick + (["n1"] : List Name).length :=
  c6_unknown_operator_lazy _ _ () ["n1"] [] "n2" (by decide)
    (fun m hm => by
      have hm1 : m = "n1" := by simpa using hm
      subst hm1
      exact ⟨idOp, [], rfl, rfl⟩)
    rfl

/-- C7: for every acyclic graph built by `add_edge` calls, `topological()`
succeeds with a sequence in which every registered node (including
auto-registered isolated edge endpoints) appears exactly once, and for every
edge `src→dst` the node `src` appears before `dst`. -/
theorem c7_nodes_once_sources_before (l : List (Name × Name))
    (hacy : ¬ Cyclic (buildGraph l)) :
    ∃ order, topological (buildGraph l) = .ok order ∧
      (∀ n, n ∈ nodes (buildGraph l) → order.count n = 1) ∧
      order.Perm (nodes (buildGraph l)) ∧
      ∀ a b, edgeRel (buildGraph l) a b →
        order.indexOf a < order.indexOf b := by
  rcases topological_cases (buildGraph l) with h | ⟨order, h⟩
  · exact absurd (cyclic_of_error (wf_buildGraph l) h) hacy
  · obtain ⟨hperm, hresp⟩ := topological_ok_spec (wf_buildGraph l) h
    refine ⟨order, h, ?_, hperm, fun a b hab => (hresp a b hab).2⟩
    intro n hn
    rw [hperm.count_eq]
    exact List.count_eq_one_of_mem (wf_buildGraph l).nodupN hn

/-- C7 (witness): the theorem at the acyclic graph `n1→n2`, its acyclicity
discharged from the concrete successful run. -/
theorem c7_witness :
    ∃ order, topological (buildGraph [("n1", "n2")]) = .ok order ∧
      (∀ n, n ∈ nodes (buildGraph [("n1", "n2")]) → order.count n = 1) ∧
      order.Perm (nodes (buildGraph [("n1", "n2")])) ∧
      ∀ a b, edgeRel (buildGraph [("n1", "n2")]) a b →
        order.indexOf a < order.indexOf b :=
  c7_nodes_once_sources_before [("n1", "n2")]
    (not_cyclic_of_ok (wf_buildGraph [("n1", "n2")])
      (show topological (buildGraph [("n1", "n2")]) = .ok ["n1", "n2"] by decide))

/-- C8: after a completed run, `replay_buffer()` is the payload projection
of the recorder snapshot: it returns exactly the run's recorded records
(tick, operator, result), in trace order, appended to whatever the recorder
already held, without invoking any operator and without modifying the
trace (it is a pure function of the VM state). -/
theorem c8_replay_buffer_projection {σ γ ρ ε : Type} (vm : GraphVM σ γ ρ ε)
    (s : σ) (goal : γ) (tr : List (Record ρ))
    (h : (run vm s goal).1 = .ok tr) :
    replayBuffer (run vm s goal).2 = replayBuffer vm ++ tr := by
  obtain ⟨-, -, htrace, -, -⟩ := run_ok_spec h
  unfold replayBuffer snapshot
  rw [htrace]
  simp only [List.map_append, List.map_map]
  congr 1
  exact List.map_id tr

/-- C8 (witness): the theorem at the concrete chain `n1→n2→n3`. -/
theorem c8_witness :
    replayBuffer (run (σ := DictState) (γ := Unit) (ε := String)
        (mkVM (libOf [("n1", idOp), ("n2", idOp), ("n3", idOp)])
          (buildGraph [("n1", "n2"), ("n2", "n3")])) [] ()).2 =
      replayBuffer (mkVM (σ := DictState) (γ := Unit) (ε := String)
          (libOf [("n1", idOp), ("n2", idOp), ("n3", idOp)])
          (buildGraph [("n1", "n2"), ("n2", "n3")])) ++
        [⟨0, "n1", []⟩, ⟨1, "n2", []⟩, ⟨2, "n3", []⟩] :=
  c8_replay_buffer_projection _ _ _ _ (by decide)

/-- C9: the tick counter is never reset by `run`: a successful run's trace
carries the consecutive ticks `vm.tick, vm.tick+1, …`, and a second run on
the same instance starts at tick `vm.tick + tr₁.length` — the total number
of operators executed before it — not at `0`. -/
theorem c9_tick_never_reset {σ γ ρ ε : Type} (vm : GraphVM σ γ ρ ε)
    (s : σ) (goal : γ) (s' : σ) (goal' : γ) (tr₁ tr₂ : List (Record ρ))
    (h₁ : (run vm s goal).1 = .ok tr₁)
    (h₂ : (run (run vm s goal).2 s' goal').1 = .ok tr₂) :
    tr₁.map Record.tick = List.range' vm.tick tr₁.length ∧
    tr₂.map Record.tick = List.range' (vm.tick + tr₁.length) tr₂.length ∧
    (run (run vm s goal).2 s' goal').2.tick = vm.tick + tr₁.length + tr₂.length := by
  obtain ⟨-, -, -, htk1, o1, ho1, hm1, hts1⟩ := run_ok_spec h₁
  obtain ⟨-, -, -, htk2, o2, ho2, hm2, hts2⟩ := run_ok_spec h₂
  refine ⟨hts1, ?_, ?_⟩
  · rw [htk1] at hts2
    exact hts2
  · rw [htk2, htk1]

/-- C9 (witness): two successive runs of the chain `n1→n2→n3` on one VM
instance: ticks `0,1,2` then `3,4,5`. -/
theorem c9_witness :
    ([⟨0, "n1", ([] : DictState)⟩, ⟨1, "n2", []⟩, ⟨2, "n3", []⟩].map Record.tick =
        List.range' (mkVM (σ := DictState) (γ := Unit) (ε := String)
          (libOf [("n1", idOp), ("n2", idOp), ("n3", idOp)])
          (buildGraph [("n1", "n2"), ("n2", "n3")])).tick 3) ∧
    ([⟨3, "n1", ([] : DictState)⟩, ⟨4, "n2", []⟩, ⟨5, "n3", []⟩].map Record.tick =
        List.range' ((mkVM (σ := DictState) (γ := Unit) (ε := String)
          (libOf [("n1", idOp), ("n2", idOp), ("n3", idOp)])
          (buildGraph [("n1", "n2"), ("n2", "n3")])).tick + 3) 3) ∧
    (run (run (mkVM (σ := DictState) (γ := Unit) (ε := String)
          (libOf [("n1", idOp), ("n2", idOp), ("n3", idOp)])
          (buildGraph [("n1", "n2"), ("n2", "n3")])) [] ()).2 [] ()).2.tick =
      (mkVM (σ := DictState) (γ := Unit) (ε := String)
          (libOf [("n1", idOp), ("n2", idOp), ("n3", idOp)])
          (buildGraph [("n1", "n2"), ("n2", "n3")])).tick + 3 + 3 :=
  c9_tick_never_reset _ [] () [] ()
    [⟨0, "n1", []⟩, ⟨1, "n2", []⟩, ⟨2, "n3", []⟩]
    [⟨3, "n1", []⟩, ⟨4, "n2", []⟩, ⟨5, "n3", []⟩]
    (by decide) (by decide)

/-- C10: `topological()` is a pure function of the graph's two maps: it
depends on nothing but `_edges` and `_reverse` (the indegree dict it
mutates is a fresh local copy), and since it modifies neither, two
consecutive calls on the same unmodified graph return equal results. -/
theorem c10_topological_pure_on_graph (g₁ g₂ : OperatorGraph)
    (he : g₁.edges = g₂.edges) (hr : g₁.reverse = g₂.reverse) :
    topological g₁ = topological g₂ := by
  cases g₁
  cases g₂
  simp only at he hr
  subst he
  subst hr
  rfl

/-- C10 (witness): the theorem at the concrete graph `a→b` (a second call
on the unmodified graph returns the same sequence). -/
theorem c10_witness :
    topological (buildGraph [("a", "b")]) = topological (buildGraph [("a", "b")]) :=
  c10_topological_pure_on_graph _ _ rfl rfl

end GraphVMSpec
